import Mathlib

/-!
Shallow embedding of the render-engine page model.

Source files embedded here:
* `render_engine/page.py` (the original implementation): `parse_content`
  built on the regex `(^\w+: \b.+$)` with the MULTILINE flag, and
  `Page.__init__` (attribute assignment, title/slug/url derivation).
* `src/render_engine/page.py` (the newer implementation): the attribute
  loop with `invalid_attrs`, and the `url` / `_extension` / `markup` /
  `_render_content` members.

Strings are modelled as `List Char`.  The regex class `\w` and Python
`str.lower` are modelled on their ASCII fragment, which is exact for all
ASCII inputs.  `re.split` with the multiline whole-line pattern is modelled
line-wise: a match of the pattern is exactly a full line of the form
`word-chars ++ ": " ++ rest` whose rest starts with a word character, so the
split result alternates separator segments (runs of non-matching lines,
newlines included) with matched lines.
-/

namespace RenderEngine

/-- ASCII fragment of the regex character class `\w`. -/
def isWordChar (c : Char) : Bool := c.isAlphanum || c == '_'

/-- The whitespace characters removed by Python `str.strip()`. -/
def pyIsSpace (c : Char) : Bool :=
  c == ' ' || c == '\t' || c == '\n' || c == '\r' || c == '\x0b' || c == '\x0c'

/-- Python `str.strip()`: drop trailing whitespace, then leading whitespace. -/
def pyStrip (s : List Char) : List Char :=
  ((s.reverse.dropWhile pyIsSpace).reverse).dropWhile pyIsSpace

/-- Prepend a chunk to the first element of a list of lines (the list is
extended if empty). -/
def consHeadL (p : List Char) : List (List Char) → List (List Char)
  | [] => [p]
  | l :: ls => (p ++ l) :: ls

/-- Split a text into its lines at every newline character, Python
`text.split(chr(10))` style: the result is never empty and joining the
result with newlines gives the text back. -/
def splitLines : List Char → List (List Char)
  | [] => [[]]
  | c :: cs => if c = '\n' then [] :: splitLines cs else consHeadL [c] (splitLines cs)

/-- Inverse of `splitLines`: join lines with a newline separator. -/
def joinLines : List (List Char) → List Char
  | [] => []
  | [l] => l
  | l :: ls => l ++ '\n' :: joinLines ls

/-- A full line matches the header regex `(^\w+: \b.+$)` exactly when it is
`name ++ ": " ++ value` with `name` a nonempty run of word characters and
`value` nonempty and starting with a word character (the `\b` after the
space requires a word character next). -/
def matchesHeader (l : List Char) : Bool :=
  !(l.takeWhile isWordChar).isEmpty &&
    match l.dropWhile isWordChar with
    | ':' :: ' ' :: c :: _ => isWordChar c
    | _ => false

/-- `re.split(base_matcher, content)` modelled on the line decomposition of
the text: matched lines become their own elements (the pattern has a capture
group, so they are kept), the text between two matches — newlines included —
is one separator element, and separator elements are also produced (possibly
empty) before the first match and after the last one. -/
def splitSegs : List (List Char) → List (List Char)
  | [] => [[]]
  | [l] => if matchesHeader l then [[], l, []] else [l]
  | l :: l2 :: rest =>
    if matchesHeader l then [] :: l :: consHeadL ['\n'] (splitSegs (l2 :: rest))
    else consHeadL (l ++ ['\n']) (splitSegs (l2 :: rest))

/-- Result of `parse_content`: the attribute segments and the body. -/
structure ParsedContent where
  attrs : List (List Char)
  body : List Char
deriving DecidableEq, Repr

/-- `parse_content` from `render_engine/page.py`: split on the header
pattern, pop the last element as the body (stripped), and keep the
remaining segments whose strip is non-blank as the attributes. -/
def parse_content (content : List Char) : ParsedContent :=
  let segs := splitSegs (splitLines content)
  { attrs := segs.dropLast.filter (fun s => !(pyStrip s).isEmpty)
    body := pyStrip (segs.getLastD []) }

/-! ## The original `Page.__init__` pipeline (`render_engine/page.py`) -/

/-- A value stored on a page object: a scalar string or a list of strings
(the latter produced for the configured list attributes). -/
inductive PValue where
  | str (s : List Char)
  | list (ls : List (List Char))
deriving DecidableEq, Repr

/-- Python truthiness of a stored value (empty string and empty list are
falsy). -/
def pvTruthy : PValue → Bool
  | .str s => !s.isEmpty
  | .list ls => !ls.isEmpty

/-- Code-point map of Python `str.lower` on its ASCII fragment. -/
def lowerCode (n : Nat) : Nat := if 65 ≤ n ∧ n ≤ 90 then n + 32 else n

/-- Python `str.lower` on one character (ASCII fragment). -/
def asciiLower (c : Char) : Char := Char.ofNat (lowerCode c.toNat)

/-- Python `str.lower` on a string. -/
def lowerStr (s : List Char) : List Char := s.map asciiLower

/-- An ASCII uppercase letter, phrased on code points. -/
def isUpperAscii (c : Char) : Bool := decide (65 ≤ c.toNat) && decide (c.toNat ≤ 90)

/-- Python `value.split(", ")`: split at every occurrence of the exact
two-character separator. -/
def splitCS : List Char → List (List Char)
  | [] => [[]]
  | ',' :: ' ' :: rest => [] :: splitCS rest
  | c :: rest => consHeadL [c] (splitCS rest)

/-- Python `attr.split(": ", maxsplit=1)`: cut at the first occurrence of
`": "`; `none` when the separator does not occur (the two-element unpacking
in the source raises there). -/
def splitFirstCS : List Char → Option (List Char × List Char)
  | [] => none
  | [_] => none
  | c :: d :: rest =>
    if c = ':' ∧ d = ' ' then some ([], rest)
    else (splitFirstCS (d :: rest)).map (fun p => (c :: p.1, p.2))

/-- One iteration of the attribute loop in the original `Page.__init__`:
split the attribute at the first `": "`, lower-case the name, and build
either the comma-split lower-cased list (for configured list attributes) or
the stripped scalar value. -/
def processOldAttr (listAttrs : List (List Char)) (attr : List Char) :
    Option (List Char × PValue) :=
  match splitFirstCS attr with
  | none => none
  | some (n, v) =>
    let nl := lowerStr n
    if nl ∈ listAttrs then some (nl, .list ((splitCS v).map lowerStr))
    else some (nl, .str (pyStrip v))

/-- The whole attribute loop; `none` as soon as one attribute cannot be
split (the source raises a `ValueError` there). -/
def processOldAttrs (listAttrs : List (List Char)) :
    List (List Char) → Option (List (List Char × PValue))
  | [] => some []
  | a :: rest =>
    match processOldAttr listAttrs a, processOldAttrs listAttrs rest with
    | some p, some ps => some (p :: ps)
    | _, _ => none

/-- `getattr` over a list of bindings: the most recent `setattr` wins. -/
def lookupLast (bs : List (List Char × PValue)) (n : List Char) : Option PValue :=
  bs.foldl (fun acc p => if p.1 = n then some p.2 else acc) none

def titleKey : List Char := "title".toList

def nameKey : List Char := "name".toList

def slugKey : List Char := "slug".toList

/-- The title fallback of the original constructor: a bound truthy `name`
wins, otherwise the class name (`or` in the source tests truthiness). -/
def deriveTitle (bs : List (List Char × PValue)) (className : List Char) : PValue :=
  match lookupLast bs nameKey with
  | some v => if pvTruthy v then v else .str className
  | none => .str className

def spaceToUnderscore (c : Char) : Char := if c = ' ' then '_' else c

/-- The characters removed from slugs by the substitution of the class
pattern built from bang and brackets. -/
def bannedSlugChar (c : Char) : Bool :=
  c == '!' || c == '[' || c == ']' || c == '(' || c == ')'

/-- The slug normalization at the end of the original `Page.__init__`:
lower-case, map spaces to underscores, then delete the banned characters. -/
def slugNormalize (s : List Char) : List Char :=
  ((lowerStr s).map spaceToUnderscore).filter (fun c => !bannedSlugChar c)

/-- The observable state of a constructed original-implementation page. -/
structure OldPage where
  bindings : List (List Char × PValue)
  titleV : PValue
  slug : List Char
  url : List Char
  body : List Char
deriving DecidableEq, Repr

/-- The dynamic fields assigned by the attribute loop for a given content. -/
def instanceBindings (listAttrs : List (List Char)) (content : List Char) :
    Option (List (List Char × PValue)) :=
  processOldAttrs listAttrs (parse_content content).attrs

/-- The original `Page.__init__` on an inline content string: parse the
content, assign the attribute fields, fall back for title and slug,
normalize the slug and derive the url from the first route.  `none` models
the constructor raising (an attribute segment without `": "`, a non-string
slug, or an empty route list). -/
def buildOldPage (className : List Char) (classAttrs : List (List Char × PValue))
    (listAttrs : List (List Char)) (routes : List (List Char))
    (content : List Char) : Option OldPage :=
  match instanceBindings listAttrs content with
  | none => none
  | some inst =>
    let bs0 := classAttrs ++ inst
    let bs1 := if (lookupLast bs0 titleKey).isSome then bs0
               else bs0 ++ [(titleKey, deriveTitle bs0 className)]
    let slugInit := match lookupLast bs1 slugKey with
                    | some v => some v
                    | none => lookupLast bs1 titleKey
    match slugInit with
    | some (.str s) =>
      let slug := slugNormalize s
      match routes with
      | [] => none
      | r :: _ =>
        some { bindings := bs1 ++ [(slugKey, .str slug)]
               titleV := (lookupLast bs1 titleKey).getD (.str className)
               slug := slug
               url := r ++ '/' :: slug
               body := (parse_content content).body }
    | _ => none

/-! ## The newer `Page` (`src/render_engine/page.py`) -/

/-- One iteration of the attribute loop in the newer `Page.__init__`:
lower-case the name, rename it with a leading underscore when it is in
`invalid_attrs`, then either comma-split the value (when the resulting name
is in `list_attrs`, which the newer base class does not define) or store it
unchanged. -/
def processNewAttr (invalidAttrs listAttrs : List (List Char))
    (nv : List Char × List Char) : List Char × PValue :=
  let n := lowerStr nv.1
  let n := if n ∈ invalidAttrs then '_' :: n else n
  (n, if n ∈ listAttrs then .list ((splitCS nv.2).map lowerStr) else .str nv.2)

/-- The whole attribute loop of the newer `Page.__init__`. -/
def processNewAttrs (invalidAttrs listAttrs : List (List Char))
    (attrs : List (List Char × List Char)) : List (List Char × PValue) :=
  attrs.map (processNewAttr invalidAttrs listAttrs)

/-- The `_extension` property: prepend a dot unless the configured
extension already starts with one. -/
def extensionNorm (ext : List Char) : List Char :=
  match ext with
  | '.' :: rest => '.' :: rest
  | _ => '.' :: ext

/-- The `url` property of the newer `Page` as written in the source: the
slug followed by the normalized extension (the first route is not used). -/
def urlOf (slug ext : List Char) : List Char := slug ++ extensionNorm ext

/-- The `markup` property of the newer `Page`: the parser conversion of the
content when the attribute exists, and `None` otherwise (the body of the
property has no else branch). -/
def markupOf (convert : List Char → List Char) : Option (List Char) → Option (List Char)
  | some c => some (convert c)
  | none => none

/-- Failure of `_render_content` (the `ValueError` raised when the page has
neither content nor template). -/
inductive RenderErr where
  | noContentOrTemplate
deriving DecidableEq, Repr

/-- `_render_content` of the newer `Page`: with a truthy template and an
engine, render the template over the page context (abstracted by
`renderT`, receiving the template and the optional markup); otherwise
return the markup when the page has content; otherwise raise. -/
def render_content (template : Option (List Char)) (engine : Bool)
    (content : Option (List Char)) (convert : List Char → List Char)
    (renderT : List Char → Option (List Char) → List Char) :
    Except RenderErr (List Char) :=
  let fallback : Except RenderErr (List Char) :=
    match markupOf convert content with
    | some m => .ok m
    | none => .error .noContentOrTemplate
  match template with
  | some t => if !t.isEmpty && engine then .ok (renderT t (markupOf convert content)) else fallback
  | none => fallback

/-! ## Helper lemmas -/

lemma consHeadL_ne_nil (p : List Char) (ls : List (List Char)) : consHeadL p ls ≠ [] := by
  cases ls <;> simp [consHeadL]

lemma splitLines_ne_nil (s : List Char) : splitLines s ≠ [] := by
  cases s with
  | nil => simp [splitLines]
  | cons c cs =>
    unfold splitLines
    split
    · simp
    · exact consHeadL_ne_nil _ _

lemma splitSegs_ne_nil (ls : List (List Char)) : splitSegs ls ≠ [] := by
  match ls with
  | [] => simp [splitSegs]
  | [l] => unfold splitSegs; split <;> simp
  | l :: l2 :: rest =>
    unfold splitSegs
    split
    · simp
    · exact consHeadL_ne_nil _ _

lemma isWordChar_not_space (c : Char) (h : isWordChar c = true) : pyIsSpace c = false := by
  by_contra hs
  rw [Bool.not_eq_false] at hs
  simp only [pyIsSpace, Bool.or_eq_true, beq_iff_eq] at hs
  rcases hs with ((((h1 | h1) | h1) | h1) | h1) | h1 <;> subst h1 <;> exact absurd h (by decide)

lemma mem_dropWhile_of_neg {p : Char → Bool} {l : List Char} {c : Char}
    (hc : c ∈ l) (hp : p c = false) : c ∈ l.dropWhile p := by
  induction l with
  | nil => cases hc
  | cons a t ih =>
    rw [List.dropWhile_cons]
    rcases List.mem_cons.mp hc with rfl | ht
    · rw [hp]; simp
    · split
      · exact ih ht
      · exact List.mem_cons_of_mem _ ht

lemma pyStrip_ne_nil {l : List Char} {c : Char} (hc : c ∈ l) (hp : pyIsSpace c = false) :
    pyStrip l ≠ [] := by
  intro hnil
  unfold pyStrip at hnil
  rw [List.dropWhile_eq_nil_iff] at hnil
  have hc2 : c ∈ (l.reverse.dropWhile pyIsSpace).reverse := by
    rw [List.mem_reverse]
    exact mem_dropWhile_of_neg (List.mem_reverse.mpr hc) hp
  have := hnil c hc2
  rw [hp] at this
  cases this

/-- The first element, when there is one, is not whitespace. -/
def noLeadWs (l : List Char) : Prop :=
  match l with
  | [] => True
  | c :: _ => pyIsSpace c = false

/-- The last element, when there is one, is not whitespace. -/
def noTrailWs (l : List Char) : Prop := noLeadWs l.reverse

lemma noLeadWs_dropWhile (l : List Char) : noLeadWs (l.dropWhile pyIsSpace) := by
  induction l with
  | nil => trivial
  | cons a t ih =>
    rw [List.dropWhile_cons]
    split
    · exact ih
    · next h =>
      show pyIsSpace a = false
      cases hb : pyIsSpace a
      · rfl
      · exact absurd hb h

lemma dropWhile_of_noLeadWs {l : List Char} (h : noLeadWs l) :
    l.dropWhile pyIsSpace = l := by
  cases l with
  | nil => rfl
  | cons a t =>
    rw [List.dropWhile_cons]
    simp [show pyIsSpace a = false from h]

lemma noLeadWs_of_append_left {x y : List Char} (h : noLeadWs (x ++ y)) (hx : x ≠ []) :
    noLeadWs x := by
  cases x with
  | nil => exact absurd rfl hx
  | cons c t => exact h

lemma noTrailWs_dropWhile {l : List Char} (h : noTrailWs l) :
    noTrailWs (l.dropWhile pyIsSpace) := by
  induction l with
  | nil => trivial
  | cons a t ih =>
    rw [List.dropWhile_cons]
    split
    · apply ih
      cases t with
      | nil => trivial
      | cons b u =>
        unfold noTrailWs at h ⊢
        rw [List.reverse_cons] at h
        exact noLeadWs_of_append_left h (by simp)
    · exact h

lemma pyStrip_idem (s : List Char) : pyStrip (pyStrip s) = pyStrip s := by
  have hBtrail : noTrailWs (s.reverse.dropWhile pyIsSpace).reverse := by
    unfold noTrailWs
    rw [List.reverse_reverse]
    exact noLeadWs_dropWhile _
  have hRtrail : noTrailWs (pyStrip s) := noTrailWs_dropWhile hBtrail
  have hRlead : noLeadWs (pyStrip s) :=
    noLeadWs_dropWhile ((s.reverse.dropWhile pyIsSpace).reverse)
  show ((pyStrip s).reverse.dropWhile pyIsSpace).reverse.dropWhile pyIsSpace = pyStrip s
  rw [dropWhile_of_noLeadWs (show noLeadWs (pyStrip s).reverse from hRtrail),
    List.reverse_reverse]
  exact dropWhile_of_noLeadWs hRlead

lemma parse_body_stripped (c : List Char) :
    pyStrip (parse_content c).body = (parse_content c).body :=
  pyStrip_idem _

lemma joinLines_consHeadL (c : Char) (L : List (List Char)) (h : L ≠ []) :
    joinLines (consHeadL [c] L) = c :: joinLines L := by
  cases L with
  | nil => exact absurd rfl h
  | cons l ls =>
    cases ls with
    | nil => rfl
    | cons l2 rest => simp [consHeadL, joinLines]

lemma joinLines_splitLines (s : List Char) : joinLines (splitLines s) = s := by
  induction s with
  | nil => rfl
  | cons c cs ih =>
    unfold splitLines
    split
    · next h =>
      subst h
      cases hL : splitLines cs with
      | nil => exact absurd hL (splitLines_ne_nil cs)
      | cons l ls =>
        have hjl : joinLines ([] :: l :: ls) = '\n' :: joinLines (l :: ls) := by
          simp [joinLines]
        rw [hjl, ← hL, ih]
    · cases hL : splitLines cs with
      | nil => exact absurd hL (splitLines_ne_nil cs)
      | cons l ls =>
        rw [joinLines_consHeadL _ _ (by simp), ← hL, ih]

lemma noMatch_splitSegs : ∀ ls : List (List Char), ls ≠ [] →
    (∀ l ∈ ls, matchesHeader l = false) → splitSegs ls = [joinLines ls]
  | [], h, _ => absurd rfl h
  | [l], _, hm => by
    unfold splitSegs
    rw [if_neg (by rw [hm l (by simp)]; simp)]
    rfl
  | l :: l2 :: rest, _, hm => by
    unfold splitSegs
    rw [if_neg (by rw [hm l (by simp)]; simp),
      noMatch_splitSegs (l2 :: rest) (by simp)
        (fun x hx => hm x (List.mem_cons_of_mem _ hx))]
    show [(l ++ ['\n']) ++ joinLines (l2 :: rest)] = [joinLines (l :: l2 :: rest)]
    rw [show joinLines (l :: l2 :: rest) = l ++ '\n' :: joinLines (l2 :: rest) by
      simp [joinLines]]
    simp

lemma match_mem_splitSegs : ∀ (ls : List (List Char)) (l : List Char), l ∈ ls →
    matchesHeader l = true →
    ∃ pre post, splitSegs ls = pre ++ l :: post ∧ pre ≠ [] ∧ post ≠ []
  | [], l, hl, _ => absurd hl (by simp)
  | [a], l, hl, hm => by
    have heq : l = a := by simpa using hl
    subst heq
    refine ⟨[[]], [[]], ?_, by simp, by simp⟩
    unfold splitSegs
    rw [if_pos hm]
    rfl
  | a :: a2 :: rest, l, hl, hm => by
    rcases List.mem_cons.mp hl with rfl | htail
    · refine ⟨[[]], consHeadL ['\n'] (splitSegs (a2 :: rest)), ?_, by simp,
        consHeadL_ne_nil _ _⟩
      simp only [splitSegs]
      rw [if_pos hm]
      rfl
    · obtain ⟨pre, post, hs, hpre, hpost⟩ := match_mem_splitSegs (a2 :: rest) l htail hm
      cases pre with
      | nil => exact absurd rfl hpre
      | cons p0 ps =>
        simp only [splitSegs]
        by_cases ha : matchesHeader a = true
        · rw [if_pos ha, hs]
          refine ⟨[] :: a :: (['\n'] ++ p0) :: ps, post, ?_, by simp, hpost⟩
          simp [consHeadL]
        · rw [if_neg ha, hs]
          refine ⟨((a ++ ['\n']) ++ p0) :: ps, post, ?_, by simp, hpost⟩
          simp [consHeadL]

lemma matchesHeader_struct (l : List Char) (h : matchesHeader l = true) :
    l.takeWhile isWordChar ≠ [] ∧
      ∃ c rest, l.dropWhile isWordChar = ':' :: ' ' :: c :: rest ∧ isWordChar c = true := by
  unfold matchesHeader at h
  rw [Bool.and_eq_true] at h
  obtain ⟨h1, h2⟩ := h
  constructor
  · intro hnil
    rw [hnil] at h1
    simp at h1
  · split at h2
    · next c rest heq => exact ⟨c, rest, heq, h2⟩
    · cases h2

lemma matchesHeader_pyStrip_ne_nil (l : List Char) (h : matchesHeader l = true) :
    pyStrip l ≠ [] := by
  obtain ⟨h1, _, _, _, _⟩ := matchesHeader_struct l h
  cases hw : l.takeWhile isWordChar with
  | nil => exact absurd hw h1
  | cons w ws =>
    have hwmem : w ∈ l.takeWhile isWordChar := by rw [hw]; simp
    have hwl : w ∈ l := by
      have hsplit := List.takeWhile_append_dropWhile (p := isWordChar) (l := l)
      rw [← hsplit]
      exact List.mem_append_left _ hwmem
    exact pyStrip_ne_nil hwl (isWordChar_not_space w (List.mem_takeWhile_imp hwmem))

lemma parse_content_eq (c : List Char) :
    parse_content c
      = ⟨(splitSegs (splitLines c)).dropLast.filter (fun s => !(pyStrip s).isEmpty),
         pyStrip ((splitSegs (splitLines c)).getLastD [])⟩ := rfl

/-! ## Claim theorems -/

/-- C1, counterexample: in the text made of the lines `a: b`, `body`,
`c: d`, the line `c: d` lies after the first non-matching line — by the
claim it belongs to the body and must not be returned as an attribute — yet
`parse_content` returns it in the attributes list, and the body is empty
instead of holding everything after the first non-matching line. -/
theorem C1_counterexample :
    ("c: d".toList) ∈ (parse_content ("a: b\nbody\nc: d".toList)).attrs
      ∧ (parse_content ("a: b\nbody\nc: d".toList)).body = [] := by decide

/-- C1, amended: the parser recognizes `key: value` lines anywhere in the
text, not only in a contiguous run at the start — every line matching the
header pattern is returned in the attributes list, wherever it occurs. -/
theorem C1_amended_matches_anywhere (content l : List Char)
    (hl : l ∈ splitLines content) (hm : matchesHeader l = true) :
    l ∈ (parse_content content).attrs := by
  obtain ⟨pre, post, hs, hpre, hpost⟩ :=
    match_mem_splitSegs (splitLines content) l hl hm
  show l ∈ (splitSegs (splitLines content)).dropLast.filter (fun s => !(pyStrip s).isEmpty)
  rw [hs]
  rcases post with _ | ⟨q, qs⟩
  · exact absurd rfl hpost
  · rw [List.dropLast_append_cons]
    refine List.mem_filter.mpr ⟨?_, ?_⟩
    · refine List.mem_append_right _ ?_
      simp [List.dropLast]
    · simpa using matchesHeader_pyStrip_ne_nil l hm

/-- C1, witness for the amended statement at a concrete input. -/
theorem C1_amended_matches_anywhere_witness :
    ("embedded: line".toList)
      ∈ (parse_content ("k: v\nText here\nembedded: line".toList)).attrs :=
  C1_amended_matches_anywhere _ _ (by decide) (by decide)

/-- C6, counterexample: re-parsing the body is not idempotent — in
`" a: b"` the only line starts with a space, so the first parse returns the
whole text stripped, `"a: b"`, as the body; stripping exposed a header line,
and the second parse classifies it as an attribute, returning the empty
body instead. -/
theorem C6_counterexample :
    (parse_content (parse_content (" a: b".toList)).body).body
      ≠ (parse_content (" a: b".toList)).body := by decide

/-- C6, amended: re-parsing the body returns the same body (and no
attributes) provided no line of the body matches the header pattern;
stripping can otherwise expose a header line, which a re-parse extracts. -/
theorem C6_amended_idempotent_without_header (content : List Char)
    (h : ∀ l ∈ splitLines (parse_content content).body, matchesHeader l = false) :
    parse_content (parse_content content).body
      = ⟨[], (parse_content content).body⟩ := by
  have hsegs : splitSegs (splitLines (parse_content content).body)
      = [joinLines (splitLines (parse_content content).body)] :=
    noMatch_splitSegs _ (splitLines_ne_nil _) h
  rw [joinLines_splitLines] at hsegs
  rw [parse_content_eq ((parse_content content).body), hsegs]
  simp [parse_body_stripped]

/-- C6, witness for the amended statement at a concrete input. -/
theorem C6_amended_idempotent_without_header_witness :
    parse_content (parse_content ("x: y\nBody here".toList)).body
      = ⟨[], (parse_content ("x: y\nBody here".toList)).body⟩ :=
  C6_amended_idempotent_without_header _ (by decide)

/-- C7: the parser is total — the regex split never returns an empty list
(so popping the body element cannot fail), and `parse_content` returns an
attributes/body pair on every input, malformed header lines included. -/
theorem C7_parse_total (content : List Char) :
    splitSegs (splitLines content) ≠ []
      ∧ ∃ attrs body, parse_content content = ⟨attrs, body⟩ :=
  ⟨splitSegs_ne_nil _, _, _, rfl⟩

/-- C2, code evaluation: the newer `url` property concatenates only the
slug and the normalized extension — for a page with slug `page` and the
default extension the url is `page.html`, with no route prefix (the default
primary route is `./`), contradicting both the claim and the docstring of the property
itself; extension normalization itself does guarantee a single leading
dot. -/
theorem C2_url_drops_route :
    urlOf ("page".toList) (".html".toList) = "page.html".toList
      ∧ ("./".toList ++ "page.html".toList) ≠ urlOf ("page".toList) (".html".toList)
      ∧ extensionNorm ("html".toList) = ".html".toList
      ∧ extensionNorm (".html".toList) = ".html".toList := by decide

/-- C5: rendering with neither content nor a truthy template fails with the
render error rather than producing an output string, whether or not an
engine is available. -/
theorem C5_render_error_without_content_or_template (engine : Bool)
    (convert : List Char → List Char)
    (renderT : List Char → Option (List Char) → List Char) :
    render_content none engine none convert renderT = .error .noContentOrTemplate
      ∧ render_content (some []) engine none convert renderT
        = .error .noContentOrTemplate :=
  ⟨rfl, rfl⟩

/-- C10: the `markup` property returns `None` when the page has no content
attribute and the parser conversion of the content when it exists, and the
template-less render path returns exactly that conversion. -/
theorem C10_markup_none_without_content (convert : List Char → List Char) :
    markupOf convert none = none
      ∧ (∀ c, markupOf convert (some c) = some (convert c))
      ∧ ∀ c engine renderT,
          render_content none engine (some c) convert renderT = .ok (convert c) :=
  ⟨rfl, fun _ => rfl, fun _ _ _ => rfl⟩

/-- C3: an attribute whose lower-cased name is the reserved name `slug` is
stored under the renamed key `_slug` with its value unchanged, and no
processed attribute is ever stored under the key `slug` itself. -/
theorem C3_reserved_attr_renamed (listAttrs : List (List Char))
    (attrs : List (List Char × List Char)) (n v : List Char)
    (hn : lowerStr n = slugKey) (hno : ('_' :: slugKey) ∉ listAttrs) :
    processNewAttr [slugKey] listAttrs (n, v) = ('_' :: slugKey, .str v)
      ∧ slugKey ∉ (processNewAttrs [slugKey] listAttrs attrs).map Prod.fst := by
  constructor
  · unfold processNewAttr
    simp only [hn]
    rw [if_pos (by simp), if_neg hno]
  · intro hmem
    rw [List.mem_map] at hmem
    obtain ⟨a, ha, heq⟩ := hmem
    unfold processNewAttrs at ha
    rw [List.mem_map] at ha
    obtain ⟨b, _, hb⟩ := ha
    rw [← hb] at heq
    simp only [processNewAttr] at heq
    by_cases hm : lowerStr b.1 ∈ [slugKey]
    · rw [if_pos hm] at heq
      rw [show lowerStr b.1 = slugKey from by simpa using hm] at heq
      exact absurd heq (by decide)
    · rw [if_neg hm] at heq
      exact hm (by simp [heq])

/-- C3, witness at a concrete reserved attribute. -/
theorem C3_reserved_attr_renamed_witness :
    processNewAttr [slugKey] [] ("SLUG".toList, "My Page".toList)
        = ('_' :: slugKey, .str ("My Page".toList))
      ∧ slugKey ∉ (processNewAttrs [slugKey] []
          [("SLUG".toList, "My Page".toList)]).map Prod.fst :=
  C3_reserved_attr_renamed [] [("SLUG".toList, "My Page".toList)]
    ("SLUG".toList) ("My Page".toList) (by decide) (by decide)

lemma toNat_asciiLower (c : Char) : (asciiLower c).toNat = lowerCode c.toNat := by
  unfold asciiLower
  by_cases h : 65 ≤ c.toNat ∧ c.toNat ≤ 90
  · have h32 : lowerCode c.toNat = c.toNat + 32 := by unfold lowerCode; rw [if_pos h]
    have hv : (c.toNat + 32).isValidChar := Or.inl (by omega)
    rw [h32]
    unfold Char.ofNat
    rw [dif_pos hv]
    rfl
  · have h0 : lowerCode c.toNat = c.toNat := by unfold lowerCode; rw [if_neg h]
    rw [h0, Char.ofNat_toNat]

lemma isUpperAscii_asciiLower (c : Char) : isUpperAscii (asciiLower c) = false := by
  unfold isUpperAscii
  rw [toNat_asciiLower]
  unfold lowerCode
  by_cases h : 65 ≤ c.toNat ∧ c.toNat ≤ 90
  · rw [if_pos h]
    have h2 : ¬(c.toNat + 32 ≤ 90) := by omega
    simp [h2]
  · rw [if_neg h]
    by_cases h1 : 65 ≤ c.toNat
    · have h2 : ¬(c.toNat ≤ 90) := fun hh => h ⟨h1, hh⟩
      simp [h2]
    · simp [h1]

lemma slugNormalize_chars (s : List Char) :
    (slugNormalize s).all (fun c => !isUpperAscii c && !bannedSlugChar c) = true := by
  rw [List.all_eq_true]
  intro c hc
  unfold slugNormalize at hc
  rw [List.mem_filter] at hc
  obtain ⟨hm, hb⟩ := hc
  rw [List.mem_map] at hm
  obtain ⟨c1, hc1, rfl⟩ := hm
  unfold lowerStr at hc1
  rw [List.mem_map] at hc1
  obtain ⟨c0, _, rfl⟩ := hc1
  rw [Bool.and_eq_true]
  refine ⟨?_, hb⟩
  unfold spaceToUnderscore
  by_cases hsp : asciiLower c0 = ' '
  · rw [if_pos hsp]
    decide
  · rw [if_neg hsp]
    simp [isUpperAscii_asciiLower]

/-- C4: however an original-implementation page is constructed — whatever
its class attributes, content, title casing or explicit slug attribute —
its slug contains no uppercase ASCII letter and none of the characters
bang, square brackets and parentheses. -/
theorem C4_slug_invariant (className : List Char)
    (classAttrs : List (List Char × PValue)) (listAttrs routes : List (List Char))
    (content : List Char) (p : OldPage)
    (h : buildOldPage className classAttrs listAttrs routes content = some p) :
    p.slug.all (fun c => !isUpperAscii c && !bannedSlugChar c) = true := by
  simp only [buildOldPage] at h
  split at h
  · cases h
  · split at h
    · split at h
      · cases h
      · rw [Option.some_inj] at h
        rw [← h]
        exact slugNormalize_chars _
    · cases h

/-- C4, witness at a concrete page with uppercase and banned characters in
its title. -/
theorem C4_slug_invariant_witness :
    ∃ p, buildOldPage ("Page".toList) [] ["tags".toList] [[]]
        ("title: My [Mixed] TITLE!".toList) = some p
      ∧ p.slug.all (fun c => !isUpperAscii c && !bannedSlugChar c) = true := by
  cases hEq : buildOldPage ("Page".toList) [] ["tags".toList] [[]]
      ("title: My [Mixed] TITLE!".toList) with
  | none => exact absurd hEq (by decide)
  | some p => exact ⟨p, rfl, C4_slug_invariant _ _ _ _ _ _ hEq⟩

/-- The lower-cased name of a header-matching line. -/
def headerName (l : List Char) : List Char := lowerStr (l.takeWhile isWordChar)

/-- The value part of a header-matching line (after the `": "`). -/
def headerVal (l : List Char) : List Char := (l.dropWhile isWordChar).drop 2

lemma splitFirstCS_word (w v : List Char) (hw : ∀ c ∈ w, isWordChar c = true) :
    splitFirstCS (w ++ ':' :: ' ' :: v) = some (w, v) := by
  induction w with
  | nil => simp [splitFirstCS]
  | cons c w' ih =>
    have hc : c ≠ ':' := by
      intro hceq
      have hcw := hw c (by simp)
      rw [hceq] at hcw
      exact absurd hcw (by decide)
    cases hsh : w' ++ ':' :: ' ' :: v with
    | nil => exact absurd hsh (by simp)
    | cons d rest =>
      rw [show (c :: w') ++ ':' :: ' ' :: v = c :: d :: rest by
        rw [List.cons_append, hsh]]
      simp only [splitFirstCS]
      rw [if_neg (fun hand => hc hand.1), ← hsh,
        ih (fun x hx => hw x (List.mem_cons_of_mem _ hx))]
      rfl

/-- C8: the attribute loop stores every header-matching line under its
lower-cased name, as the `", "`-split, element-wise lower-cased list when
that name is a configured list attribute and as the trimmed scalar
otherwise; on the input of Scenario A the stored attributes are
title to Hello World and tags to the list of a and b. -/
theorem C8_list_attr_split :
    (∀ (l : List Char) (listAttrs : List (List Char)), matchesHeader l = true →
      processOldAttr listAttrs l
        = some (headerName l,
            if headerName l ∈ listAttrs
            then PValue.list ((splitCS (headerVal l)).map lowerStr)
            else PValue.str (pyStrip (headerVal l))))
    ∧ instanceBindings ["tags".toList]
        ("title: Hello World\ntags: a, B\n\nBody text.".toList)
      = some [(titleKey, .str ("Hello World".toList)),
              ("tags".toList, .list ["a".toList, "b".toList])] := by
  constructor
  · intro l listAttrs hm
    obtain ⟨h1, c, rest, hd, hc⟩ := matchesHeader_struct l hm
    have hw : ∀ x ∈ l.takeWhile isWordChar, isWordChar x = true :=
      fun x hx => List.mem_takeWhile_imp hx
    have hsplit : splitFirstCS l = some (l.takeWhile isWordChar, c :: rest) := by
      conv_lhs =>
        rw [← List.takeWhile_append_dropWhile (p := isWordChar) (l := l), hd]
      exact splitFirstCS_word _ _ hw
    have hval : headerVal l = c :: rest := by
      unfold headerVal
      rw [hd]
      rfl
    unfold processOldAttr
    rw [hsplit]
    simp only []
    unfold headerName
    rw [hval]
    by_cases hmem : lowerStr (l.takeWhile isWordChar) ∈ listAttrs
    · rw [if_pos hmem, if_pos hmem]
    · rw [if_neg hmem, if_neg hmem]
  · decide

/-- C8, witness for the universal part at a concrete list attribute. -/
theorem C8_list_attr_split_witness :
    processOldAttr ["tags".toList] ("tags: a, B".toList)
      = some (headerName ("tags: a, B".toList),
          if headerName ("tags: a, B".toList) ∈ ["tags".toList]
          then PValue.list ((splitCS (headerVal ("tags: a, B".toList))).map lowerStr)
          else PValue.str (pyStrip (headerVal ("tags: a, B".toList)))) :=
  C8_list_attr_split.1 ("tags: a, B".toList) ["tags".toList] (by decide)

lemma lookupLast_append_single (bs : List (List Char × PValue)) (k : List Char)
    (v : PValue) : lookupLast (bs ++ [(k, v)]) k = some v := by
  unfold lookupLast
  rw [List.foldl_append]
  simp

/-- C9, counterexample: a parsed attribute `name: Foo` — with no title
attribute and no variant-configured default name — makes the constructed
title Foo, while the claim requires the type name of the page there. -/
theorem C9_counterexample :
    (buildOldPage ("Page".toList) [] ["tags".toList] [[]]
        ("name: Foo".toList)).map OldPage.titleV = some (.str ("Foo".toList))
      ∧ (buildOldPage ("Page".toList) [] ["tags".toList] [[]]
          ("name: Foo".toList)).map OldPage.titleV
        ≠ some (.str ("Page".toList)) := by decide

/-- C9, amended: for every constructed page without a bound title (neither
a class attribute nor a parsed attribute), the title is the value bound to
`name` — whether variant-configured or parsed from the document — when that
value is truthy, and the type name of the page otherwise. -/
theorem C9_amended_title_fallback (className : List Char)
    (classAttrs : List (List Char × PValue)) (listAttrs routes : List (List Char))
    (content : List Char) (inst : List (List Char × PValue)) (p : OldPage)
    (h1 : instanceBindings listAttrs content = some inst)
    (h2 : lookupLast (classAttrs ++ inst) titleKey = none)
    (h3 : buildOldPage className classAttrs listAttrs routes content = some p) :
    p.titleV = match lookupLast (classAttrs ++ inst) nameKey with
               | some v => if pvTruthy v then v else PValue.str className
               | none => PValue.str className := by
  simp only [buildOldPage, h1, h2, Option.isSome_none, Bool.false_eq_true,
    if_false] at h3
  split at h3
  · split at h3
    · cases h3
    · rw [Option.some_inj] at h3
      rw [← h3]
      simp only [lookupLast_append_single, Option.getD_some]
      unfold deriveTitle
      rfl
  · cases h3

/-- C9, witness for the amended statement: a class-configured truthy
default name becomes the title. -/
theorem C9_amended_title_fallback_witness :
    ∃ p, buildOldPage ("Post".toList) [(nameKey, .str ("Blog".toList))]
        ["tags".toList] [[]] ("x: y".toList) = some p
      ∧ p.titleV = .str ("Blog".toList) := by
  cases hEq : buildOldPage ("Post".toList) [(nameKey, .str ("Blog".toList))]
      ["tags".toList] [[]] ("x: y".toList) with
  | none => exact absurd hEq (by decide)
  | some p =>
    refine ⟨p, rfl, ?_⟩
    have ht := C9_amended_title_fallback ("Post".toList)
      [(nameKey, .str ("Blog".toList))] ["tags".toList] [[]] ("x: y".toList)
      [("x".toList, .str ("y".toList))] p (by decide) (by decide) hEq
    rw [ht]
    decide

end RenderEngine
